import Mathlib

/-!
Verification of the natural-language specification of
`local-movies-sharing-server` (`src/fileserver.go`) against a shallow
embedding of its code in Lean.

Conventions of the embedding:
* Go strings are Lean `String`s (logically a list of `Char`);
  the host is Linux, so the path separator is `'/'` and
  `filepath.Clean` coincides with lexical slash-path cleaning.
* Machine integers (`int64`) are modelled as `Int`/`Nat`; none of the
  modelled computations can overflow an `int64` (noted where relevant).
* Filesystem state is modelled as a finite tree (`FSTree`), a directory
  being its list of named children in the enumeration order used by
  `filepath.Walk` (which sorts names lexically; the model takes the
  child list as already being in that order).
* `float64` quantities that only pass through (elapsed seconds,
  throughput) are modelled as exact rationals `ℚ`; the `%.1f`
  formatting of `human` is modelled with exact decimal rounding
  (Go's fixed-precision decimal conversion rounds ties to even),
  which agrees with `float64` arithmetic on every value whose
  numerator is below `2^53` — in particular on all values the claims
  mention.
-/

namespace FileServer

/-! ## Path model: `filepath.Clean`, `filepath.Join` (unix rules)

`splitSegs` splits a character list on `'/'` exactly as the
element-wise scan inside Go's `path/filepath.Clean` perceives a path:
`"/a//b"` has elements `"", "a", "", "b"`. -/

def splitSegs : List Char → List String
  | [] => [""]
  | c :: rest =>
    let r := splitSegs rest
    if c = '/' then "" :: r else ⟨c :: r.headI.data⟩ :: r.tail

/-- Joins segments with `'/'` (inverse of `splitSegs` on slash-free
segments). -/
def joinSegs : List String → String
  | [] => ""
  | [s] => s
  | s :: rest => s ++ "/" ++ joinSegs rest

/-- Go's `rooted := os.IsPathSeparator(path[0])` (unix). -/
def isRooted (s : String) : Bool := s.data.head? == some '/'

/-- One step of `filepath.Clean`'s element loop: skip empty and `"."`
elements; on `".."` backtrack one output element when possible, with a
rooted path dropping an unmatched `".."` and a relative path keeping
it; otherwise emit the element. -/
def cleanStep (rooted : Bool) (acc : List String) (seg : String) : List String :=
  if seg = "" ∨ seg = "." then acc
  else if seg = ".." then
    if rooted then acc.dropLast
    else if acc = [] ∨ acc.getLast? == some ".." then acc ++ [".."]
    else acc.dropLast
  else acc ++ [seg]

/-- The cleaned element list of a path given as raw elements. -/
def cleanSegs (rooted : Bool) (l : List String) : List String :=
  l.foldl (cleanStep rooted) []

/-- Reassembles cleaned elements into the string `filepath.Clean`
returns: an empty element list is `"/"` (rooted) or `"."`. -/
def assemble (rooted : Bool) (segs : List String) : String :=
  if segs = [] then (if rooted then "/" else ".")
  else (if rooted then "/" else "") ++ joinSegs segs

/-- Model of Go's `filepath.Clean` on unix. -/
def goClean (s : String) : String :=
  if s = "" then "."
  else assemble (isRooted s) (cleanSegs (isRooted s) (splitSegs s.data))

/-- Model of Go's `filepath.Join(a, b)` on unix: empty arguments are
skipped, the rest joined with `'/'` and cleaned. -/
def goJoin (a b : String) : String :=
  if a = "" then (if b = "" then "" else goClean b)
  else if b = "" then goClean a
  else goClean (a ++ "/" ++ b)

/-- Canonical element list of a path string (its `Clean`ed elements). -/
def pathSegs (s : String) : List String :=
  cleanSegs (isRooted s) (splitSegs s.data)

/-- The path-resolution step of `indexHandler`
(src/fileserver.go:46-47): `upath := filepath.Clean(r.URL.Path)`,
`full := filepath.Join(dir, upath)`. -/
def resolve (root req : String) : String := goJoin root (goClean req)

/-! ## `human` (src/fileserver.go:194-205) -/

/-- The `for n/div >= unit` loop of `human`: starting from
`div = 1024, exp = 0`, multiply `div` by `1024` (and bump `exp`) while
`n / div ≥ 1024`. Returns the final `(div, exp)`. -/
def humanLoop (n div exp : Nat) : Nat × Nat :=
  if h : 1024 ≤ n / div then humanLoop n (div * 1024) (exp + 1) else (div, exp)
termination_by n / div
decreasing_by
  have h1 : n / (div * 1024) = n / div / 1024 := (Nat.div_div_eq_div_mul n div 1024).symm
  have h2 : n / div / 1024 < n / div :=
    Nat.div_lt_self (Nat.lt_of_lt_of_le (by norm_num) h) (by norm_num)
  omega

/-- Go's `%.1f` applied to the exact quotient `n / d` (`d > 0`): one
decimal digit, rounding to the nearest tenth with ties to even, which
is what Go's fixed-precision decimal conversion does.  Exact for the
`float64(n)/float64(div)` of the source whenever `n < 2^53`. -/
def fmt1 (n d : Nat) : String :=
  let t0 := 10 * n / d
  let r := 10 * n % d
  let t :=
    if 2 * r < d then t0
    else if d < 2 * r then t0 + 1
    else if t0 % 2 = 0 then t0 else t0 + 1
  toString (t / 10) ++ "." ++ toString (t % 10)

/-- Model of `human(n int64)`: `"%d B"` below 1024, otherwise
`"%.1f %cB"` with the unit character `"KMGTPE"[exp]`.  (`List.getD`
with an arbitrary default stands for the string index; for `int64`
inputs `exp ≤ 5`, proved below, so the default is never used.) -/
def human (n : Int) : String :=
  if n < 1024 then toString n ++ " B"
  else
    let p := humanLoop n.toNat 1024 0
    fmt1 n.toNat p.1 ++ " " ++
      String.mk [List.getD ['K', 'M', 'G', 'T', 'P', 'E'] p.2 'K'] ++ "B"

/-! ## Filesystem model and `/speedtest` source selection
(src/fileserver.go:116-142) -/

/-- A filesystem object under the serving root: a regular file (with
its size) or a directory listing its named children.  The child list
is kept in the (lexical) order `filepath.Walk` enumerates. -/
inductive FSTree where
  | file : Nat → FSTree
  | dir : List (String × FSTree) → FSTree

/-- Scan of `filepath.Ext`: walk the name backwards until the last
dot; the extension includes the dot, and is empty without one. -/
def goExtAux : List Char → List Char → Option (List Char)
  | [], _ => none
  | c :: rest, acc => if c = '.' then some (c :: acc) else goExtAux rest (c :: acc)

/-- Model of `filepath.Ext` on a final path element (file names never
contain a separator). -/
def goExt (s : String) : String :=
  match goExtAux s.data.reverse [] with
  | none => ""
  | some l => ⟨l⟩

/-- Model of `strings.ToLower` (ASCII case folding; non-ASCII letters
can never produce one of the compared media extensions anyway). -/
def lowerStr (s : String) : String := ⟨s.data.map Char.toLower⟩

/-- The fixed media-extension set of the walk callback
(src/fileserver.go:131). -/
def isMediaExt (e : String) : Bool :=
  e == ".mkv" || e == ".mp4" || e == ".ts" || e == ".m2ts" || e == ".iso"

/-- The walk callback's test on a file name:
`ext := strings.ToLower(filepath.Ext(p))` then the set membership. -/
def mediaName (name : String) : Bool := isMediaExt (lowerStr (goExt name))

mutual

/-- Files visited by `filepath.Walk` inside the entry `name ↦ t`, as
root-relative element lists, in visiting order (directories themselves
are skipped by the callback's `info.IsDir()` guard). -/
def walkFiles (name : String) (t : FSTree) : List (List String) :=
  match t with
  | .file _ => [[name]]
  | .dir cs => (walkList cs).map (fun p => name :: p)

/-- Files visited by `filepath.Walk` across a child list, in order. -/
def walkList (cs : List (String × FSTree)) : List (List String) :=
  match cs with
  | [] => []
  | (n, t) :: rest => walkFiles n t ++ walkList rest

end

/-- Whether a visited path ends in a media-extension file name. -/
def mediaPath (p : List String) : Bool :=
  match p.getLast? with
  | some n => mediaName n
  | none => false

/-- The walk of src/fileserver.go:126-136: `found` is set to the first
visited file whose lowercased extension is in the media set, and the
walk is aborted (`return io.EOF`) at that point — observationally the
first match of the visiting order. -/
def firstMedia (root : List (String × FSTree)) : Option (List String) :=
  List.find? mediaPath (walkList root)

/-- Model of `os.Stat` relative to the serving root: follow the
cleaned elements down the tree. -/
def statNode : FSTree → List String → Option FSTree
  | t, [] => some t
  | .file _, _ :: _ => none
  | .dir cs, n :: rest =>
    match List.lookup n cs with
    | some t => statNode t rest
    | none => none

/-- Root-relative elements of the candidate path
`filepath.Join(dir, filepath.Clean("/"+fileParam))`
(src/fileserver.go:119): the cleaned elements of the rooted path
`"/" ++ fileParam`. -/
def paramSegs (fp : String) : List String :=
  cleanSegs true (splitSegs ('/' :: fp.data))

/-- Source selection of `speedTestHandler` (src/fileserver.go:116-142):
a non-empty `file` query parameter whose candidate path stats to a
non-directory wins; otherwise the walk's first media file; `none`
means no source. -/
def selectSource (root : List (String × FSTree)) (fp : String) : Option (List String) :=
  let fromParam : Option (List String) :=
    if fp = "" then none
    else
      match statNode (.dir root) (paramSegs fp) with
      | some (.file _) => some (paramSegs fp)
      | _ => none
  match fromParam with
  | some p => some p
  | none => firstMedia root

/-- Outcome of the selection step: `notFound404` is the
`http.Error(w, "no media file found for speedtest", 404)` branch. -/
inductive SpeedOutcome where
  | notFound404 : SpeedOutcome
  | stream : List String → SpeedOutcome
deriving DecidableEq

/-- The handler's branch on the selection result. -/
def speedSelect (root : List (String × FSTree)) (fp : String) : SpeedOutcome :=
  match selectSource root fp with
  | none => .notFound404
  | some p => .stream p

/-! ## `/speedtest` streaming loop (src/fileserver.go:149-191) -/

/-- The read/write chunk buffer size, `make([]byte, 1<<20)`. -/
def bufSize : Nat := 1048576

/-- Budget substitution of src/fileserver.go:149-152: a non-positive
configured `speedBytes` is replaced by `50 << 20`. -/
def effBudget (sb : Int) : Int := if sb ≤ 0 then 52428800 else sb

/-- Bytes one loop iteration reads: the loop asks for
`toRead := min (len buf) remaining` and the deterministic read of a
regular file at offset `pos` yields `nr := min toRead (fileSize - pos)`
bytes, reporting `io.EOF` exactly when it yields none. -/
def readChunk (fileSize pos remaining : Nat) : Nat :=
  min (min bufSize remaining) (fileSize - pos)

/-- The streaming loop of src/fileserver.go:160-177 over a source file
of `fileSize` bytes; `writeOk i` tells whether the `i`-th chunk write
succeeds in full (a failed or short write breaks out of the loop
before `total` is updated, a read of zero bytes breaks via `io.EOF`).
Returns `(total, readTotal)`: bytes counted as sent, and cumulative
bytes read. -/
def speedLoop (fileSize : Nat) (writeOk : Nat → Bool)
    (pos total readAcc remaining iter : Nat) : Nat × Nat :=
  if _h : 0 < remaining then
    if _h2 : 0 < readChunk fileSize pos remaining then
      if writeOk iter then
        speedLoop fileSize writeOk (pos + readChunk fileSize pos remaining)
          (total + readChunk fileSize pos remaining)
          (readAcc + readChunk fileSize pos remaining)
          (remaining - readChunk fileSize pos remaining) (iter + 1)
      else (total, readAcc + readChunk fileSize pos remaining)
    else (total, readAcc)
  else (total, readAcc)
termination_by remaining
decreasing_by omega

/-- Bytes the loop reports as sent on an error-free run with budget
`budget` (the handler's `remaining := size`, `total := 0`). -/
def speedSent (fileSize budget : Nat) : Nat :=
  (speedLoop fileSize (fun _ => true) 0 0 0 budget 0).1

/-! ## `/speedtest` reporting (src/fileserver.go:178-191) -/

/-- Division-by-zero guard of src/fileserver.go:108-111 and 178-181:
an elapsed time equal to zero is replaced by `0.000001` seconds. -/
def safeElapsed (e : ℚ) : ℚ := if e = 0 then 1 / 1000000 else e

/-- Throughput computation `float64(total) / (1024*1024) / elapsed`
(applied after the zero guard), shared by `serveFileFast` and
`speedTestHandler`. -/
def mbPerS (total : Nat) (e : ℚ) : ℚ :=
  (total : ℚ) / (1024 * 1024) / safeElapsed e

/-- JSON body built by `json.Marshal` on the result map
(src/fileserver.go:182-188): Go serialises map keys in sorted order
(`bytes_sent`, `duration_s`, `file`, `mb_per_s`); `mb` and `dur` stand
for the JSON renderings of the two float fields, and the file name is
assumed to need no JSON escaping. -/
def speedJson (file : String) (bytesSent : Nat) (mb dur : String) : String :=
  "\x7b\"bytes_sent\":" ++ toString bytesSent ++ ",\"duration_s\":" ++ dur ++
    ",\"file\":\"" ++ file ++ "\",\"mb_per_s\":" ++ mb ++ "\x7d"

/-- Report emission of src/fileserver.go:188-191: the line printed to
standard output (`fmt.Fprintln` appends a newline), the final
`Content-Type` header value, and the HTTP response body. -/
def speedReportOut (file : String) (bytesSent : Nat) (mb dur : String) :
    String × String × String :=
  let js := speedJson file bytesSent mb dur
  (js ++ "\n", "application/json", js)

/-! ## Full-mode file serving (src/fileserver.go:78-113) -/

/-- Size of one `io.CopyBuffer` chunk at offset `pos` of an `S`-byte
file, with the 1 MiB buffer. -/
def chunkSize (S pos : Nat) : Nat := min bufSize (S - pos)

/-- The `io.CopyBuffer(w, f, buf)` loop with a 1 MiB buffer over a
source file of `S` bytes: chunk `i` has size `chunkSize S pos` and is
written iff `writeOk i`.  Returns the successfully written chunk sizes
in order, and whether a write error occurred. -/
def copyChunks (writeOk : Nat → Bool) (S pos iter : Nat) : List Nat × Bool :=
  if _h : pos < S then
    if writeOk iter then
      (chunkSize S pos :: (copyChunks writeOk S (pos + chunkSize S pos) (iter + 1)).1,
        (copyChunks writeOk S (pos + chunkSize S pos) (iter + 1)).2)
    else ([], true)
  else ([], false)
termination_by S - pos
decreasing_by
  all_goals
    have hc : 0 < chunkSize S pos := by
      simp only [chunkSize, bufSize]
      omega
    omega

/-- Result of the full-mode (no `Range` header) branch of
`serveFileFast`: response headers, the chunk trace of the copy, and
the operator-log report (`none` when the copy ended in a write
error). -/
structure FullServe where
  ctype : String
  clen : Nat
  acceptRanges : String
  chunks : List Nat
  writeErr : Bool
  report : Option (String × String)
deriving DecidableEq

/-- Full-mode branch of `serveFileFast` (src/fileserver.go:88-113):
`Content-Type` from the MIME capability `mimeOf` applied to
`strings.ToLower(filepath.Ext(path))` (empty answer defaults to
`application/octet-stream`), `Content-Length` from the file size,
`Accept-Ranges: bytes`, then the buffered copy; on error-free
completion a transfer line `(name, human(n))` is logged. -/
def serveFull (mimeOf : String → String) (name : String) (S : Nat)
    (writeOk : Nat → Bool) : FullServe :=
  let typ0 := mimeOf (lowerStr (goExt name))
  let typ := if typ0 = "" then "application/octet-stream" else typ0
  let r := copyChunks writeOk S 0 0
  { ctype := typ
    clen := S
    acceptRanges := "bytes"
    chunks := r.1
    writeErr := r.2
    report := if r.2 then none else some (name, human (r.1.sum : Int)) }

/-- Dispatch of `serveFileFast` (src/fileserver.go:78-88): a request
with a `Range` header is delegated to `http.ServeContent` (modelled as
`none`: no full-mode response, and in particular no transfer report);
otherwise the full-mode branch runs. -/
def serveFileFast (hasRange : Bool) (mimeOf : String → String) (name : String)
    (S : Nat) (writeOk : Nat → Bool) : Option FullServe :=
  if hasRange then none else some (serveFull mimeOf name S writeOk)

/-- The transfer-report line emitted by a `serveFileFast` call, if
any. -/
def transferLog (hasRange : Bool) (mimeOf : String → String) (name : String)
    (S : Nat) (writeOk : Nat → Bool) : Option (String × String) :=
  match serveFileFast hasRange mimeOf name S writeOk with
  | none => none
  | some fs => fs.report

/-! ## Directory listing (src/fileserver.go:53-73) -/

/-- Model of `filepath.ToSlash` on unix: the separator already is
`'/'`, so the function is the identity. -/
def toSlash (s : String) : String := s

/-- Listing rows generated by the `for _, e := range list` loop
(src/fileserver.go:67-71): one row per directory entry, carrying the
link `filepath.ToSlash(filepath.Join(upath, name))`, the display name,
and the human-readable size. -/
def listingEntries (upath : String) (children : List (String × Int)) :
    List (String × String × String) :=
  children.map (fun e => (toSlash (goJoin upath e.1), e.1, human e.2))

/-! ## Lemmas about the path model -/

theorem splitSegs_ne_nil (l : List Char) : splitSegs l ≠ [] := by
  cases l with
  | nil => simp [splitSegs]
  | cons c rest => simp only [splitSegs]; split <;> simp

theorem mem_splitSegs_no_slash (l : List Char) :
    ∀ s ∈ splitSegs l, '/' ∉ s.data := by
  induction l with
  | nil =>
    intro s hs
    simp only [splitSegs, List.mem_singleton] at hs
    subst hs; simp
  | cons c rest ih =>
    intro s hs
    simp only [splitSegs] at hs
    by_cases hc : c = '/'
    · rw [if_pos hc] at hs
      rcases List.mem_cons.mp hs with h | h
      · subst h; simp
      · exact ih s h
    · rw [if_neg hc] at hs
      rcases List.mem_cons.mp hs with h | h
      · subst h
        intro hmem
        rcases List.mem_cons.mp hmem with h' | h'
        · exact hc h'.symm
        · have hhead : (splitSegs rest).headI ∈ splitSegs rest := by
            cases hsr : splitSegs rest with
            | nil => exact absurd hsr (splitSegs_ne_nil rest)
            | cons a as => simp [List.headI]
          exact ih _ hhead h'
      · exact ih s (List.mem_of_mem_tail h)

theorem splitSegs_append (a b : List Char) :
    splitSegs (a ++ '/' :: b) = splitSegs a ++ splitSegs b := by
  induction a with
  | nil => simp [splitSegs]
  | cons c rest ih =>
    cases hsr : splitSegs rest with
    | nil => exact absurd hsr (splitSegs_ne_nil rest)
    | cons s ss =>
      show splitSegs (c :: (rest ++ '/' :: b)) = splitSegs (c :: rest) ++ splitSegs b
      by_cases hc : c = '/'
      · simp only [splitSegs, if_pos hc, ih, hsr]
        simp
      · simp only [splitSegs, if_neg hc, ih, hsr]
        simp [List.headI]

theorem splitSegs_single (l : List Char) (h : '/' ∉ l) : splitSegs l = [⟨l⟩] := by
  induction l with
  | nil => rfl
  | cons c rest ih =>
    have hc : c ≠ '/' := fun hc => h (by simp [hc])
    have hrest : '/' ∉ rest := fun hr => h (List.mem_cons_of_mem _ hr)
    simp only [splitSegs, if_neg hc, ih hrest]
    simp [List.headI]

theorem splitSegs_joinSegs (segs : List String) (hne : segs ≠ [])
    (hfree : ∀ s ∈ segs, '/' ∉ s.data) :
    splitSegs (joinSegs segs).data = segs := by
  induction segs with
  | nil => exact absurd rfl hne
  | cons s rest ih =>
    cases rest with
    | nil =>
      show splitSegs s.data = [s]
      rw [splitSegs_single s.data (hfree s (by simp))]
    | cons s2 rest2 =>
      have hdata : (joinSegs (s :: s2 :: rest2)).data =
          s.data ++ '/' :: (joinSegs (s2 :: rest2)).data := by
        show (s ++ "/" ++ joinSegs (s2 :: rest2)).data = _
        simp [String.data_append]
      rw [hdata, splitSegs_append,
        splitSegs_single s.data (hfree s (by simp)),
        ih (by simp) (fun x hx => hfree x (List.mem_cons_of_mem _ hx))]
      rfl

theorem mem_cleanStep {r : Bool} {acc : List String} {seg x : String}
    (hx : x ∈ cleanStep r acc seg) :
    x ∈ acc ∨ (x = seg ∧ seg ≠ "" ∧ seg ≠ "." ∧ seg ≠ "..") ∨
      (x = ".." ∧ r = false) := by
  unfold cleanStep at hx
  split at hx
  · exact Or.inl hx
  · rename_i hseg
    push_neg at hseg
    split at hx
    · rename_i hdd
      split at hx
      · exact Or.inl (List.dropLast_subset acc hx)
      · split at hx
        · rcases List.mem_append.mp hx with h | h
          · exact Or.inl h
          · rename_i hr _
            simp only [List.mem_singleton] at h
            exact Or.inr (Or.inr ⟨h, by simpa using hr⟩)
        · exact Or.inl (List.dropLast_subset acc hx)
    · rename_i hdd
      rcases List.mem_append.mp hx with h | h
      · exact Or.inl h
      · simp only [List.mem_singleton] at h
        exact Or.inr (Or.inl ⟨h, hseg.1, hseg.2, by rw [h] at *; exact fun hc => hdd (h ▸ hc)⟩)

theorem mem_cleanFold {r : Bool} (l : List String) :
    ∀ acc x, x ∈ List.foldl (cleanStep r) acc l →
      x ∈ acc ∨ (x ∈ l ∧ x ≠ "" ∧ x ≠ "." ∧ x ≠ "..") ∨ (x = ".." ∧ r = false) := by
  induction l with
  | nil => intro acc x hx; exact Or.inl hx
  | cons s rest ih =>
    intro acc x hx
    simp only [List.foldl_cons] at hx
    rcases ih _ _ hx with h | h | h
    · rcases mem_cleanStep h with h' | h' | h'
      · exact Or.inl h'
      · exact Or.inr (Or.inl ⟨h'.1 ▸ List.mem_cons_self s rest, h'.1 ▸ h'.2.1,
          h'.1 ▸ h'.2.2.1, h'.1 ▸ h'.2.2.2⟩)
      · exact Or.inr (Or.inr h')
    · exact Or.inr (Or.inl ⟨List.mem_cons_of_mem _ h.1, h.2⟩)
    · exact Or.inr (Or.inr h)

theorem cleanSegs_good (l : List String) :
    ∀ x ∈ cleanSegs true l, x ≠ "" ∧ x ≠ "." ∧ x ≠ ".." := by
  intro x hx
  rcases mem_cleanFold l [] x hx with h | h | h
  · simp at h
  · exact h.2
  · simp at h

theorem cleanSegs_ne_empty {r : Bool} (l : List String) :
    ∀ x ∈ cleanSegs r l, x ≠ "" := by
  intro x hx
  rcases mem_cleanFold l [] x hx with h | h | h
  · simp at h
  · exact h.2.1
  · rw [h.1]; decide

theorem cleanSegs_no_slash {r : Bool} (cs : List Char) :
    ∀ x ∈ cleanSegs r (splitSegs cs), '/' ∉ x.data := by
  intro x hx
  rcases mem_cleanFold (splitSegs cs) [] x hx with h | h | h
  · simp at h
  · exact mem_splitSegs_no_slash cs x h.1
  · rw [h.1]; decide

theorem cleanFold_no_dots {r : Bool} (l : List String)
    (hl : ∀ s ∈ l, s ≠ "." ∧ s ≠ "..") :
    ∀ acc, List.foldl (cleanStep r) acc l = acc ++ l.filter (fun s => !(s == "")) := by
  induction l with
  | nil => intro acc; simp
  | cons s rest ih =>
    intro acc
    have hs := hl s (by simp)
    simp only [List.foldl_cons]
    rw [ih (fun x hx => hl x (List.mem_cons_of_mem _ hx))]
    by_cases he : s = ""
    · subst he
      simp [cleanStep]
    · have hstep : cleanStep r acc s = acc ++ [s] := by
        unfold cleanStep
        rw [if_neg (by simp [he, hs.1]), if_neg hs.2]
      rw [hstep, List.filter_cons_of_pos (by simp [he]), List.append_assoc]
      rfl

theorem joinSegs_ne_empty (segs : List String) (hne : segs ≠ [])
    (hnonempty : ∀ x ∈ segs, x ≠ "") : joinSegs segs ≠ "" := by
  cases segs with
  | nil => exact absurd rfl hne
  | cons s rest =>
    cases rest with
    | nil => exact hnonempty s (by simp)
    | cons s2 rest2 =>
      intro h
      have hd := congrArg String.data h
      rw [show joinSegs (s :: s2 :: rest2) = s ++ "/" ++ joinSegs (s2 :: rest2) from rfl]
        at hd
      simp [String.data_append] at hd

theorem assemble_ne_empty (r : Bool) (segs : List String)
    (hnonempty : ∀ x ∈ segs, x ≠ "") : assemble r segs ≠ "" := by
  unfold assemble
  by_cases hs : segs = []
  · rw [if_pos hs]; cases r <;> decide
  · rw [if_neg hs]
    intro h
    have hd := congrArg String.data h
    have hj := joinSegs_ne_empty segs hs hnonempty
    cases r <;> simp [String.data_append] at hd <;>
      exact hj (String.ext (by simp [hd]))

theorem goClean_ne_empty (s : String) : goClean s ≠ "" := by
  unfold goClean
  split
  · decide
  · exact assemble_ne_empty _ _ (cleanSegs_ne_empty _)

theorem data_ne_nil_of_ne_empty {s : String} (h : s ≠ "") : s.data ≠ [] :=
  fun hd => h (String.ext hd)

theorem isRooted_append (a b : String) (ha : a ≠ "") :
    isRooted (a ++ b) = isRooted a := by
  unfold isRooted
  rw [String.data_append]
  cases hd : a.data with
  | nil => exact absurd hd (data_ne_nil_of_ne_empty ha)
  | cons c cs => simp

theorem pathSegs_assemble_true (out : List String)
    (hgood : ∀ x ∈ out, x ≠ "" ∧ x ≠ "." ∧ x ≠ "..")
    (hfree : ∀ x ∈ out, '/' ∉ x.data) :
    pathSegs (assemble true out) = out ∧ isRooted (assemble true out) = true := by
  by_cases hout : out = []
  · subst hout
    constructor <;> rfl
  · have hasm : assemble true out = "/" ++ joinSegs out := by
      unfold assemble; rw [if_neg hout]; rfl
    have hdata : (assemble true out).data = '/' :: (joinSegs out).data := by
      rw [hasm, String.data_append]; rfl
    constructor
    · unfold pathSegs
      rw [hdata]
      have hsplit : splitSegs ('/' :: (joinSegs out).data) =
          "" :: splitSegs (joinSegs out).data := by
        simp [splitSegs]
      rw [hsplit, splitSegs_joinSegs out hout hfree]
      show List.foldl (cleanStep _) [] ("" :: out) = out
      simp only [List.foldl_cons]
      have h0 : cleanStep (isRooted (assemble true out)) [] "" = [] := by
        unfold cleanStep; simp
      rw [h0, cleanFold_no_dots out (fun x hx => (hgood x hx).2) [],
        List.filter_eq_self.mpr (fun x hx => by simp [(hgood x hx).1]),
        List.nil_append]
    · simp [isRooted, hdata]

theorem goClean_append_segs (root c : String) (hroot : root ≠ "") (_hc : c ≠ "") :
    goClean (root ++ "/" ++ c) =
      assemble (isRooted root)
        (List.foldl (cleanStep (isRooted root)) (pathSegs root) (splitSegs c.data)) := by
  have hne : root ++ "/" ++ c ≠ "" := by
    intro h
    have hd := congrArg String.data h
    simp [String.data_append] at hd
  have hrooted : isRooted (root ++ "/" ++ c) = isRooted root := by
    rw [isRooted_append _ c (by
      intro h
      have hd := congrArg String.data h
      simp [String.data_append] at hd),
      isRooted_append _ _ hroot]
  have hdata : (root ++ "/" ++ c).data = root.data ++ '/' :: c.data := by
    simp [String.data_append]
  unfold goClean
  rw [if_neg hne, hrooted, hdata, splitSegs_append]
  unfold cleanSegs pathSegs cleanSegs
  rw [List.foldl_append]

/-- C1: for every request path — empty, or rooted as every HTTP
origin-form request path is, covering every combination of `..`, `.`
and redundant separators — the filesystem path computed by
`indexHandler`'s resolution step (`filepath.Clean` then
`filepath.Join` onto the serving root) is the serving root's cleaned
form extended by traversal-free elements (no `..`, `.` or empty
element), hence lies within the serving root; an empty or root request
path resolves to the serving root itself. -/
theorem c1_path_resolution_sandboxed (root req : String) (hroot : root ≠ "")
    (hreq : req = "" ∨ isRooted req = true) :
    (∃ rest : List String,
        (∀ x ∈ rest, x ≠ "" ∧ x ≠ "." ∧ x ≠ "..") ∧
        resolve root req = assemble (isRooted root) (pathSegs root ++ rest)) ∧
    ((req = "" ∨ req = "/") → resolve root req = goClean root) := by
  have hres : resolve root req = goClean (root ++ "/" ++ goClean req) := by
    unfold resolve goJoin
    rw [if_neg hroot, if_neg (goClean_ne_empty req)]
  have hgc : goClean root = assemble (isRooted root) (pathSegs root) := by
    unfold goClean pathSegs
    rw [if_neg hroot]
  rcases hreq with hre | hro
  · subst hre
    rw [hres, show goClean "" = "." from rfl,
      goClean_append_segs root "." hroot (by decide),
      show splitSegs (".".data) = ["."] from rfl]
    have hfold : List.foldl (cleanStep (isRooted root)) (pathSegs root) ["."] =
        pathSegs root := by simp [cleanStep]
    rw [hfold]
    exact ⟨⟨[], by simp, by rw [List.append_nil]⟩, fun _ => hgc.symm⟩
  · have hreqne : req ≠ "" := by
      intro h; subst h; simp [isRooted] at hro
    have hcq : goClean req =
        assemble true (cleanSegs true (splitSegs req.data)) := by
      unfold goClean
      rw [if_neg hreqne, hro]
    have hgood : ∀ x ∈ cleanSegs true (splitSegs req.data),
        x ≠ "" ∧ x ≠ "." ∧ x ≠ ".." := cleanSegs_good _
    have hfree : ∀ x ∈ cleanSegs true (splitSegs req.data), '/' ∉ x.data :=
      cleanSegs_no_slash _
    by_cases ho : cleanSegs true (splitSegs req.data) = []
    · have hv : goClean req = "/" := by rw [hcq, ho]; rfl
      rw [hres, hv, goClean_append_segs root "/" hroot (by decide),
        show splitSegs ("/".data) = ["", ""] from rfl]
      have hfold : List.foldl (cleanStep (isRooted root)) (pathSegs root) ["", ""] =
          pathSegs root := by simp [cleanStep]
      rw [hfold]
      exact ⟨⟨[], by simp, by rw [List.append_nil]⟩, fun _ => hgc.symm⟩
    · have hjoin : goClean req =
          "/" ++ joinSegs (cleanSegs true (splitSegs req.data)) := by
        rw [hcq]; unfold assemble; rw [if_neg ho]; rfl
      have hcdata : (goClean req).data =
          '/' :: (joinSegs (cleanSegs true (splitSegs req.data))).data := by
        rw [hjoin, String.data_append]; rfl
      rw [hres, goClean_append_segs root (goClean req) hroot (goClean_ne_empty req),
        hcdata]
      have hsplit : splitSegs ('/' :: (joinSegs (cleanSegs true (splitSegs req.data))).data) =
          "" :: splitSegs (joinSegs (cleanSegs true (splitSegs req.data))).data := by
        simp [splitSegs]
      rw [hsplit, splitSegs_joinSegs _ ho hfree]
      have hfold : List.foldl (cleanStep (isRooted root)) (pathSegs root)
          ("" :: cleanSegs true (splitSegs req.data)) =
          pathSegs root ++ cleanSegs true (splitSegs req.data) := by
        simp only [List.foldl_cons]
        have h0 : cleanStep (isRooted root) (pathSegs root) "" = pathSegs root := by
          unfold cleanStep; simp
        rw [h0, cleanFold_no_dots _ (fun x hx => (hgood x hx).2) _,
          List.filter_eq_self.mpr (fun x hx => by simp [(hgood x hx).1])]
      rw [hfold]
      refine ⟨⟨cleanSegs true (splitSegs req.data), hgood, rfl⟩, ?_⟩
      rintro (h | h)
      · exact absurd h hreqne
      · exfalso
        apply ho
        rw [h]
        rfl

/-- Witness for C1 at the serving root `"/data"` and the traversal
request path `"/../../etc/passwd"`. -/
theorem c1_witness :
    ("/data" ≠ "" ∧ ("/../../etc/passwd" = "" ∨ isRooted "/../../etc/passwd" = true)) ∧
    ((∃ rest : List String,
        (∀ x ∈ rest, x ≠ "" ∧ x ≠ "." ∧ x ≠ "..") ∧
        resolve "/data" "/../../etc/passwd" =
          assemble (isRooted "/data") (pathSegs "/data" ++ rest)) ∧
      (("/../../etc/passwd" = "" ∨ "/../../etc/passwd" = "/") →
        resolve "/data" "/../../etc/passwd" = goClean "/data")) :=
  ⟨⟨by decide, by decide⟩,
    c1_path_resolution_sandboxed "/data" "/../../etc/passwd" (by decide) (by decide)⟩

/-! ## Lemmas about `human` -/

theorem humanLoop_exp_le (n : Nat) :
    ∀ m div exp, 0 < div → n < 1024 * div * 1024 ^ m →
      (humanLoop n div exp).2 ≤ exp + m := by
  intro m
  induction m with
  | zero =>
    intro div exp hdiv hlt
    rw [humanLoop, dif_neg]
    · simp
    · intro hge
      have h1 : n / div < 1024 := (Nat.div_lt_iff_lt_mul hdiv).mpr (by simpa using hlt)
      omega
  | succ m ih =>
    intro div exp hdiv hlt
    rw [humanLoop]
    by_cases hge : 1024 ≤ n / div
    · rw [dif_pos hge]
      have heq : 1024 * (div * 1024) * 1024 ^ m = 1024 * div * 1024 ^ (m + 1) := by
        ring
      have := ih (div * 1024) (exp + 1) (by positivity) (by rw [heq]; exact hlt)
      omega
    · rw [dif_neg hge]
      simp

/-- C7: the size formatter uses binary units with suffixes
B/KB/MB/GB/TB/PB/EB and one decimal place at or above KB; the four
spec examples evaluate as claimed, and every `int64` value at or above
1024 formats as integer part, dot, one decimal digit, space, and one
of the KB..EB suffixes. -/
theorem c7_human_format :
    human 0 = "0 B" ∧ human 1024 = "1.0 KB" ∧ human 1536 = "1.5 KB" ∧
    human 1048576 = "1.0 MB" ∧
    ∀ n : Int, 1024 ≤ n → n < 2 ^ 63 →
      ∃ (i f : Nat) (u : String), f < 10 ∧ u ∈ ["KB", "MB", "GB", "TB", "PB", "EB"] ∧
        human n = toString i ++ "." ++ toString f ++ " " ++ u := by
  have e1 : humanLoop 1024 1024 0 = (1024, 0) := by
    rw [humanLoop]; norm_num
  have e2 : humanLoop 1536 1024 0 = (1024, 0) := by
    rw [humanLoop]; norm_num
  have e3 : humanLoop 1048576 1024 0 = (1048576, 1) := by
    rw [humanLoop]; norm_num
    rw [humanLoop]; norm_num
  refine ⟨by decide, ?_, ?_, ?_, ?_⟩
  · show human 1024 = "1.0 KB"
    norm_num [human, e1, fmt1, show Int.toNat 1024 = 1024 from rfl]
    decide
  · show human 1536 = "1.5 KB"
    norm_num [human, e2, fmt1, show Int.toNat 1536 = 1536 from rfl]
    decide
  · show human 1048576 = "1.0 MB"
    norm_num [human, e3, fmt1, show Int.toNat 1048576 = 1048576 from rfl]
    decide
  · intro n hn hlt
    have hn0 : ¬ n < 1024 := by omega
    have h63 : (2 : Int) ^ 63 = 9223372036854775808 := by norm_num
    have hb : (1024 * 1024 * 1024 ^ 5 : Nat) = 1180591620717411303424 := by norm_num
    have hnat : n.toNat < 1024 * 1024 * 1024 ^ 5 := by
      rw [hb]; rw [h63] at hlt; omega
    obtain ⟨d, e, hde⟩ : ∃ d e, humanLoop n.toNat 1024 0 = (d, e) := ⟨_, _, rfl⟩
    have hexp : e ≤ 5 := by
      have h := humanLoop_exp_le n.toNat 5 1024 0 (by norm_num) hnat
      rw [hde] at h
      simpa using h
    have hh : human n = fmt1 n.toNat d ++ " " ++
        String.mk [List.getD ['K', 'M', 'G', 'T', 'P', 'E'] e 'K'] ++ "B" := by
      simp only [human]
      rw [if_neg hn0]
      simp only [hde]
    obtain ⟨t, ht⟩ : ∃ t, fmt1 n.toNat d =
        toString (t / 10) ++ "." ++ toString (t % 10) := ⟨_, rfl⟩
    refine ⟨t / 10, t % 10,
      String.mk [List.getD ['K', 'M', 'G', 'T', 'P', 'E'] e 'K'] ++ "B",
      Nat.mod_lt _ (by norm_num), ?_, ?_⟩
    · interval_cases e <;> decide
    · rw [hh, ht]
      simp [String.append_assoc]

/-- Witness for C7's general shape at `n = 2500000`
(`human 2500000 = "2.4 MB"`). -/
theorem c7_witness :
    ((1024 : Int) ≤ 2500000 ∧ (2500000 : Int) < 2 ^ 63) ∧
    (∃ (i f : Nat) (u : String), f < 10 ∧ u ∈ ["KB", "MB", "GB", "TB", "PB", "EB"] ∧
      human 2500000 = toString i ++ "." ++ toString f ++ " " ++ u) :=
  ⟨⟨by norm_num, by norm_num⟩,
    c7_human_format.2.2.2.2 2500000 (by norm_num) (by norm_num)⟩

/-! ## Lemmas about the streaming loops -/

theorem speedLoop_all_ok (S : Nat) :
    ∀ fuel pos total readAcc remaining iter, remaining ≤ fuel →
      speedLoop S (fun _ => true) pos total readAcc remaining iter =
        (total + min remaining (S - pos), readAcc + min remaining (S - pos)) := by
  intro fuel
  induction fuel with
  | zero =>
    intro pos total readAcc remaining iter hle
    rw [speedLoop, dif_neg (by omega)]
    have h0 : min remaining (S - pos) = 0 := by omega
    rw [h0]
    simp
  | succ fuel ih =>
    intro pos total readAcc remaining iter hle
    rw [speedLoop]
    by_cases h : 0 < remaining
    · rw [dif_pos h]
      have hr : readChunk S pos remaining = min (min bufSize remaining) (S - pos) := rfl
      by_cases h2 : 0 < readChunk S pos remaining
      · rw [dif_pos h2, if_pos rfl, ih _ _ _ _ _ (by omega)]
        rw [hr] at h2 ⊢
        have hb : 0 < bufSize := by norm_num [bufSize]
        simp only [Prod.mk.injEq]
        omega
      · rw [dif_neg h2]
        rw [hr] at h2
        have hb : 0 < bufSize := by norm_num [bufSize]
        have h0 : min remaining (S - pos) = 0 := by omega
        rw [h0]
        simp
    · rw [dif_neg h]
      have h0 : min remaining (S - pos) = 0 := by omega
      rw [h0]
      simp

theorem speedLoop_read_le (S : Nat) (w : Nat → Bool) :
    ∀ fuel pos total readAcc remaining iter, remaining ≤ fuel →
      (speedLoop S w pos total readAcc remaining iter).2 ≤ readAcc + remaining := by
  intro fuel
  induction fuel with
  | zero =>
    intro pos total readAcc remaining iter hle
    rw [speedLoop, dif_neg (by omega)]
    simp
  | succ fuel ih =>
    intro pos total readAcc remaining iter hle
    rw [speedLoop]
    by_cases h : 0 < remaining
    · rw [dif_pos h]
      have hr : readChunk S pos remaining = min (min bufSize remaining) (S - pos) := rfl
      by_cases h2 : 0 < readChunk S pos remaining
      · rw [dif_pos h2]
        have hnr : readChunk S pos remaining ≤ remaining := by rw [hr]; omega
        by_cases hw : w iter
        · rw [if_pos hw]
          have := ih (pos + readChunk S pos remaining)
            (total + readChunk S pos remaining)
            (readAcc + readChunk S pos remaining)
            (remaining - readChunk S pos remaining) (iter + 1) (by omega)
          omega
        · rw [if_neg hw]
          simp only
          omega
      · rw [dif_neg h2]
        simp only
        omega
    · rw [dif_neg h]
      simp only
      omega

/-- C2: with configured budget `N` (and an error-free client), a
source file of at least `N` bytes yields exactly `N` bytes sent and
reported, a smaller file of `S` bytes yields exactly `S`; and in every
run, whatever the write outcomes, the cumulative bytes read never
exceed `N`. -/
theorem c2_speedtest_budget (N S : Nat) (_hN : 0 < N) :
    (N ≤ S → speedSent S N = N) ∧
    (S < N → speedSent S N = S) ∧
    (∀ w : Nat → Bool, (speedLoop S w 0 0 0 N 0).2 ≤ N) := by
  have hall := speedLoop_all_ok S N 0 0 0 N 0 (Nat.le_refl N)
  refine ⟨?_, ?_, ?_⟩
  · intro hNS
    unfold speedSent
    rw [hall]
    simp only
    omega
  · intro hSN
    unfold speedSent
    rw [hall]
    simp only
    omega
  · intro w
    have := speedLoop_read_le S w N 0 0 0 N 0 (Nat.le_refl N)
    simpa using this

/-- Witness for C2 with budget 50 and a 100-byte source file. -/
theorem c2_witness :
    (0 < 50 ∧ 50 ≤ 100) ∧ speedSent 100 50 = 50 :=
  ⟨⟨by norm_num, by norm_num⟩,
    (c2_speedtest_budget 50 100 (by norm_num)).1 (by norm_num)⟩

/-- C10: a non-positive configured speed-test budget is replaced by
the 50 MiB default, and the budget actually used is always strictly
positive. -/
theorem c10_default_budget (sb : Int) :
    (sb ≤ 0 → effBudget sb = 50 * 2 ^ 20) ∧ 0 < effBudget sb := by
  unfold effBudget
  constructor
  · intro h
    rw [if_pos h]
    norm_num
  · by_cases h : sb ≤ 0
    · rw [if_pos h]
      norm_num
    · rw [if_neg h]
      omega

/-- Witness for C10 at the non-positive configured budget `-3`. -/
theorem c10_witness : effBudget (-3) = 50 * 2 ^ 20 ∧ 0 < effBudget (-3) :=
  ⟨(c10_default_budget (-3)).1 (by norm_num), (c10_default_budget (-3)).2⟩

/-- C9: the throughput computations of `serveFileFast` and
`speedTestHandler` never divide by zero: a zero elapsed time is
replaced by the epsilon `0.000001` before `MB/s` (with
`1024 * 1024`-byte megabytes) is computed, and the computed throughput
times the (always non-zero) divisor recovers the byte count. -/
theorem c9_no_division_by_zero (total : Nat) (e : ℚ) :
    safeElapsed e ≠ 0 ∧ (e = 0 → safeElapsed e = 1 / 1000000) ∧
    mbPerS total e * (1024 * 1024 * safeElapsed e) = (total : ℚ) := by
  by_cases he : e = 0
  · subst he
    refine ⟨by norm_num [safeElapsed], fun _ => by norm_num [safeElapsed], ?_⟩
    unfold mbPerS safeElapsed
    rw [if_pos rfl]
    ring_nf
  · refine ⟨by simp [safeElapsed, he], fun h => absurd h he, ?_⟩
    unfold mbPerS safeElapsed
    rw [if_neg he]
    field_simp

/-- Witness for C9 at `total = 7` bytes and elapsed time zero. -/
theorem c9_witness :
    safeElapsed 0 ≠ 0 ∧ safeElapsed 0 = 1 / 1000000 ∧
    mbPerS 7 0 * (1024 * 1024 * safeElapsed 0) = (7 : ℚ) :=
  ⟨(c9_no_division_by_zero 7 0).1, (c9_no_division_by_zero 7 0).2.1 rfl,
    (c9_no_division_by_zero 7 0).2.2⟩

/-- C6: every `/speedtest` run that reaches the reporting step emits
the same JSON throughput object to the operator log (with a trailing
newline, via `fmt.Fprintln`) and as the HTTP response body, and the
handler's final `Content-Type` header value is `application/json`. -/
theorem c6_speedtest_report (f : String) (t : Nat) (mb dur : String) :
    (speedReportOut f t mb dur).1 = (speedReportOut f t mb dur).2.2 ++ "\n" ∧
    (speedReportOut f t mb dur).2.1 = "application/json" ∧
    (speedReportOut f t mb dur).2.2 = speedJson f t mb dur :=
  ⟨rfl, rfl, rfl⟩

theorem copyChunks_all_ok (S : Nat) :
    ∀ fuel pos iter, S - pos ≤ fuel →
      (copyChunks (fun _ => true) S pos iter).1.sum = S - pos ∧
      (∀ c ∈ (copyChunks (fun _ => true) S pos iter).1, c ≤ bufSize) ∧
      (copyChunks (fun _ => true) S pos iter).2 = false := by
  intro fuel
  induction fuel with
  | zero =>
    intro pos iter hle
    rw [copyChunks, dif_neg (by omega)]
    simp
    omega
  | succ fuel ih =>
    intro pos iter hle
    rw [copyChunks]
    by_cases h : pos < S
    · rw [dif_pos h, if_pos rfl]
      have hc : 0 < chunkSize S pos := by
        simp only [chunkSize, bufSize]
        omega
      have hcle : chunkSize S pos ≤ S - pos := by
        simp only [chunkSize]
        omega
      obtain ⟨ih1, ih2, ih3⟩ := ih (pos + chunkSize S pos) (iter + 1) (by omega)
      refine ⟨?_, ?_, ih3⟩
      · simp only [List.sum_cons, ih1]
        omega
      · intro c hcmem
        rcases List.mem_cons.mp hcmem with h' | h'
        · subst h'
          simp only [chunkSize]
          exact min_le_left _ _
        · exact ih2 c h'
    · rw [dif_neg h]
      simp
      omega

/-- C4: a file request without a `Range` header gets `Content-Type`
from the extension-to-MIME lookup (defaulting to
`application/octet-stream` when the lookup returns no type),
`Content-Length` equal to the file size, `Accept-Ranges: bytes`, and
(with an error-free client) the copy writes the entire file in chunks
bounded by the fixed 1 MiB buffer. -/
theorem c4_full_mode_response (mimeOf : String → String) (name : String) (S : Nat) :
    (serveFull mimeOf name S (fun _ => true)).ctype =
      (if mimeOf (lowerStr (goExt name)) = "" then "application/octet-stream"
        else mimeOf (lowerStr (goExt name))) ∧
    (serveFull mimeOf name S (fun _ => true)).clen = S ∧
    (serveFull mimeOf name S (fun _ => true)).acceptRanges = "bytes" ∧
    (serveFull mimeOf name S (fun _ => true)).chunks.sum = S ∧
    (∀ c ∈ (serveFull mimeOf name S (fun _ => true)).chunks, c ≤ bufSize) ∧
    (serveFull mimeOf name S (fun _ => true)).writeErr = false := by
  obtain ⟨h1, h2, h3⟩ := copyChunks_all_ok S S 0 0 (by omega)
  refine ⟨rfl, rfl, rfl, ?_, ?_, ?_⟩
  · show (copyChunks (fun _ => true) S 0 0).1.sum = S
    rw [h1]
    omega
  · exact h2
  · exact h3

/-- C5: a transfer-report line `(name, human bytes)` is logged exactly
when a full-mode (no `Range` header) copy completes without a write
error; on a mid-stream write error the handler returns silently with
no report, and a range-mode request never produces a report. -/
theorem c5_transfer_report (hasRange : Bool) (mimeOf : String → String)
    (name : String) (S : Nat) (writeOk : Nat → Bool) :
    (hasRange = true → transferLog hasRange mimeOf name S writeOk = none) ∧
    (hasRange = false →
      ((serveFull mimeOf name S writeOk).writeErr = true →
        transferLog hasRange mimeOf name S writeOk = none) ∧
      ((serveFull mimeOf name S writeOk).writeErr = false →
        transferLog hasRange mimeOf name S writeOk =
          some (name, human ((serveFull mimeOf name S writeOk).chunks.sum : Int)))) := by
  constructor
  · intro h
    subst h
    rfl
  · intro h
    subst h
    constructor
    · intro herr
      have herr' : (copyChunks writeOk S 0 0).2 = true := herr
      simp [transferLog, serveFileFast, serveFull, herr']
    · intro hok
      have hok' : (copyChunks writeOk S 0 0).2 = false := hok
      simp [transferLog, serveFileFast, serveFull, hok']

/-- Witness for C5: an error-free full-mode transfer of a 5-byte file
produces the report line. -/
theorem c5_witness :
    transferLog false (fun _ => "") "a.bin" 5 (fun _ => true) =
      some ("a.bin",
        human (((serveFull (fun _ => "") "a.bin" 5 (fun _ => true)).chunks.sum : Int))) :=
  ((c5_transfer_report false (fun _ => "") "a.bin" 5 (fun _ => true)).2 rfl).2
    (copyChunks_all_ok 5 5 0 0 (by norm_num)).2.2

/-! ## Lemmas about source selection and directory listing -/

theorem find?_split {α : Type} (p : α → Bool) (l : List α) (a : α)
    (h : List.find? p l = some a) :
    p a = true ∧ ∃ l1 l2, l = l1 ++ a :: l2 ∧ ∀ b ∈ l1, p b = false := by
  induction l with
  | nil => simp at h
  | cons x xs ih =>
    by_cases hx : p x = true
    · rw [List.find?_cons_of_pos xs hx] at h
      obtain rfl : x = a := Option.some.inj h
      exact ⟨hx, [], xs, rfl, by simp⟩
    · rw [List.find?_cons_of_neg xs hx] at h
      obtain ⟨hp, l1, l2, rfl, hall⟩ := ih h
      refine ⟨hp, x :: l1, l2, rfl, ?_⟩
      intro b hb
      rcases List.mem_cons.mp hb with h' | h'
      · subst h'
        simpa using hx
      · exact hall b h'

/-- C3: `/speedtest` source selection — the candidate named by a
non-empty `file` parameter is traversal-free (never escapes the
serving root), and wins whenever it stats to a non-directory;
otherwise the recursive walk supplies the first file, in depth-first
visiting order, whose case-folded extension is in the media set (no
earlier visited file matches); when neither yields a source the
handler answers 404. -/
theorem c3_speedtest_source_selection (root : List (String × FSTree)) (fp : String) :
    (∀ x ∈ paramSegs fp, x ≠ "" ∧ x ≠ "." ∧ x ≠ "..") ∧
    (∀ sz, fp ≠ "" → statNode (.dir root) (paramSegs fp) = some (.file sz) →
      selectSource root fp = some (paramSegs fp)) ∧
    ((fp = "" ∨ statNode (.dir root) (paramSegs fp) = none ∨
        (∃ cs, statNode (.dir root) (paramSegs fp) = some (.dir cs))) →
      selectSource root fp = firstMedia root) ∧
    (∀ p, firstMedia root = some p →
      mediaPath p = true ∧ ∃ l1 l2, walkList root = l1 ++ p :: l2 ∧
        ∀ q ∈ l1, mediaPath q = false) ∧
    (selectSource root fp = none → speedSelect root fp = SpeedOutcome.notFound404) := by
  refine ⟨cleanSegs_good _, ?_, ?_, ?_, ?_⟩
  · intro sz hne hstat
    simp [selectSource, hne, hstat]
  · intro h
    rcases h with h | h | ⟨cs, h⟩
    · simp [selectSource, h]
    · by_cases hfp : fp = "" <;> simp [selectSource, hfp, h]
    · by_cases hfp : fp = "" <;> simp [selectSource, hfp, h]
  · intro p hp
    exact find?_split mediaPath (walkList root) p hp
  · intro h
    simp [speedSelect, h]

/-- Witness for C3: with no usable `file` parameter, the selection
walks the tree depth-first and picks the first media file, here the
upper-cased `m.MKV` inside a subdirectory. -/
theorem c3_witness :
    selectSource [("x.txt", FSTree.file 1), ("sub", FSTree.dir [("m.MKV", FSTree.file 2)])]
        "" = some ["sub", "m.MKV"] := by
  rw [(c3_speedtest_source_selection
    [("x.txt", FSTree.file 1), ("sub", FSTree.dir [("m.MKV", FSTree.file 2)])]
    "").2.2.1 (Or.inl rfl)]
  have hw : walkList [("x.txt", FSTree.file 1), ("sub", FSTree.dir [("m.MKV", FSTree.file 2)])] =
      [["x.txt"], ["sub", "m.MKV"]] := by
    simp [walkList, walkFiles]
  rw [firstMedia, hw]
  decide

theorem pathSegs_join_segment (reqPath n : String) (hr : isRooted reqPath = true)
    (hn : n ≠ "" ∧ n ≠ "." ∧ n ≠ ".." ∧ '/' ∉ n.data) :
    pathSegs (goJoin (goClean reqPath) n) = pathSegs (goClean reqPath) ++ [n] := by
  have hreqne : reqPath ≠ "" := by
    intro h
    subst h
    simp [isRooted] at hr
  have hcq : goClean reqPath =
      assemble true (cleanSegs true (splitSegs reqPath.data)) := by
    unfold goClean
    rw [if_neg hreqne, hr]
  have hgood := cleanSegs_good (splitSegs reqPath.data)
  have hfree := cleanSegs_no_slash (r := true) reqPath.data
  obtain ⟨hps, hroot⟩ := pathSegs_assemble_true _ hgood hfree
  have hps' : pathSegs (goClean reqPath) = cleanSegs true (splitSegs reqPath.data) := by
    rw [hcq]
    exact hps
  have hroot' : isRooted (goClean reqPath) = true := by
    rw [hcq]
    exact hroot
  have hjoin : goJoin (goClean reqPath) n = goClean (goClean reqPath ++ "/" ++ n) := by
    unfold goJoin
    rw [if_neg (goClean_ne_empty reqPath), if_neg hn.1]
  rw [hjoin, goClean_append_segs _ n (goClean_ne_empty reqPath) hn.1,
    splitSegs_single n.data hn.2.2.2,
    show (⟨n.data⟩ : String) = n from rfl, hroot']
  have hstep : List.foldl (cleanStep true) (pathSegs (goClean reqPath)) [n] =
      cleanSegs true (splitSegs reqPath.data) ++ [n] := by
    simp only [List.foldl_cons, List.foldl_nil, hps']
    unfold cleanStep
    rw [if_neg (by simp [hn.1, hn.2.1]), if_neg hn.2.2.1]
  rw [hstep, hps']
  have hgood2 : ∀ x ∈ cleanSegs true (splitSegs reqPath.data) ++ [n],
      x ≠ "" ∧ x ≠ "." ∧ x ≠ ".." := by
    intro x hx
    rcases List.mem_append.mp hx with h | h
    · exact hgood x h
    · simp only [List.mem_singleton] at h
      subst h
      exact ⟨hn.1, hn.2.1, hn.2.2.1⟩
  have hfree2 : ∀ x ∈ cleanSegs true (splitSegs reqPath.data) ++ [n], '/' ∉ x.data := by
    intro x hx
    rcases List.mem_append.mp hx with h | h
    · exact hfree x h
    · simp only [List.mem_singleton] at h
      subst h
      exact hn.2.2.2
  exact (pathSegs_assemble_true _ hgood2 hfree2).1

/-- C8: a successful directory listing has exactly one row per
immediate child, in order; each row links
`filepath.ToSlash(filepath.Join(upath, name))` for the displayed
request path `upath`, and (the names an OS directory read can return
being plain: never empty, `.`, `..`, or containing a separator) that
link resolves under the serving namespace to exactly the child —
the listed path's canonical elements extended by the child's name. -/
theorem c8_directory_listing (reqPath : String) (children : List (String × Int))
    (hr : isRooted reqPath = true)
    (hnames : ∀ e ∈ children, e.1 ≠ "" ∧ e.1 ≠ "." ∧ e.1 ≠ ".." ∧ '/' ∉ e.1.data) :
    (listingEntries (goClean reqPath) children).length = children.length ∧
    ∀ i (hi : i < children.length)
      (hi' : i < (listingEntries (goClean reqPath) children).length),
      (listingEntries (goClean reqPath) children).get ⟨i, hi'⟩ =
        (toSlash (goJoin (goClean reqPath) (children.get ⟨i, hi⟩).1),
          (children.get ⟨i, hi⟩).1, human (children.get ⟨i, hi⟩).2) ∧
      pathSegs (goJoin (goClean reqPath) (children.get ⟨i, hi⟩).1) =
        pathSegs (goClean reqPath) ++ [(children.get ⟨i, hi⟩).1] := by
  constructor
  · simp [listingEntries]
  · intro i hi hi'
    constructor
    · simp [listingEntries, List.get_eq_getElem, List.getElem_map]
    · exact pathSegs_join_segment reqPath (children.get ⟨i, hi⟩).1 hr
        (hnames (children.get ⟨i, hi⟩) (List.get_mem children i hi))

/-- Witness for C8: the listing of `/films` containing one entry
`a.mkv`, whose link resolves to the child `films/a.mkv`. -/
theorem c8_witness :
    pathSegs (goJoin (goClean "/films") "a.mkv") =
      pathSegs (goClean "/films") ++ ["a.mkv"] ∧
    (listingEntries (goClean "/films") [("a.mkv", (1536 : Int))]).length = 1 := by
  have h := c8_directory_listing "/films" [("a.mkv", 1536)] (by decide) (by decide)
  exact ⟨(h.2 0 (by norm_num) (by decide)).2, h.1⟩

end FileServer
